import Mathlib

/-!
Shallow embedding of the Binance scanner / Telegram alert bot (src/main.py)
and verification of its specification claims.

Numeric values (Python floats) are modelled as exact rationals; decimal
literals of the source (1.5, 1.0, 0.7, -1.0) become the rationals 3/2, 1,
7/10, -1. Fallible Python operations (list indexing, float parsing,
comparisons against None, division by zero) are modelled in an Except monad
whose error constructors mirror the Python exception classes.
-/

namespace TgBot

/-! ### Python-level error model -/

/-- Exceptions raisable by the modelled code paths: list indexing out of
range, comparing or formatting a None, float() on a malformed string,
division by zero. -/
inductive Err where
  | indexError
  | typeError
  | valueError
  | zeroDivisionError
deriving DecidableEq, Repr

/-! ### Resilient fetch client (src/main.py, http_get, lines 48-86)

The unsigned request path is modelled (the signed branch, lines 52-71,
has the identical status classification). A call is given the sequence of
responses the single requested URL would produce, one per attempt; the
result is the parsed body (if any) together with the attempt trace: for
each attempt, the URL contacted and the sleep (seconds) performed after a
failed attempt (none when the attempt returned a body). -/

/-- One upstream response: a successful parse of a response body, an HTTP
error status (code at least 400, possibly carrying a Retry-After duration),
or a transport-level exception. -/
inductive Resp where
  | ok (body : Nat)
  | status (code : Nat) (retryAfter : Option Nat)
  | netErr
deriving DecidableEq, Repr

def MAX_RETRIES : Nat := 3

def RETRY_BACKOFF : List Nat := [1, 2, 4]

/-- The retry loop of http_get: on 429 sleep a fixed 2 seconds and retry,
on any other error sleep RETRY_BACKOFF[min(attempt, 2)] and retry, on
success return the body; at most the given number of attempts remain. -/
def httpGo (url : String) (rs : Nat → Resp) :
    Nat → Nat → Option Nat × List (String × Option Nat)
  | 0, _ => (none, [])
  | rem + 1, attempt =>
    match rs attempt with
    | .ok b => (some b, [(url, none)])
    | .status code _ =>
      if code = 429 then
        let p := httpGo url rs rem (attempt + 1)
        (p.1, (url, some 2) :: p.2)
      else
        let wait := RETRY_BACKOFF.getD (min attempt (RETRY_BACKOFF.length - 1)) 0
        let p := httpGo url rs rem (attempt + 1)
        (p.1, (url, some wait) :: p.2)
    | .netErr =>
      let wait := RETRY_BACKOFF.getD (min attempt (RETRY_BACKOFF.length - 1)) 0
      let p := httpGo url rs rem (attempt + 1)
      (p.1, (url, some wait) :: p.2)

/-- http_get: up to MAX_RETRIES attempts against the single URL given to
the call; returns None (and an exhausted trace) if all attempts fail. -/
def http_get (url : String) (rs : Nat → Resp) :
    Option Nat × List (String × Option Nat) :=
  httpGo url rs MAX_RETRIES 0

/-! ### Indicator engine (src/main.py, lines 113-160), over exact rationals -/

/-- Per-step gains and losses: for consecutive values, (max(diff,0), max(-diff,0)). -/
def gainsLosses (values : List ℚ) : List (ℚ × ℚ) :=
  (values.zip values.tail).map (fun p => (max (p.2 - p.1) 0, max (p.1 - p.2) 0))

/-- The Wilder smoothing loop of rsi (lines 125-133): fold over the
remaining (gain, loss) pairs, updating the running averages and emitting
one RSI value per pair.  avgLoss = 0 yields RSI = 100 (the source sets
RS = inf, so 100 - 100/(1+RS) evaluates to 100). -/
def rsiLoop (period : Nat) : ℚ → ℚ → List (ℚ × ℚ) → List ℚ
  | _, _, [] => []
  | avgGain, avgLoss, (g, l) :: rest =>
    let ag := (avgGain * ((period : ℚ) - 1) + g) / (period : ℚ)
    let al := (avgLoss * ((period : ℚ) - 1) + l) / (period : ℚ)
    let r := if al = 0 then 100 else 100 - 100 / (1 + ag / al)
    r :: rsiLoop period ag al rest

/-- The same loop, emitting the smoothed average loss at each step instead
of the RSI value (used to state what "the average loss at that step" is). -/
def rsiLossLoop (period : Nat) : ℚ → ℚ → List (ℚ × ℚ) → List ℚ
  | _, _, [] => []
  | avgGain, avgLoss, (g, l) :: rest =>
    let ag := (avgGain * ((period : ℚ) - 1) + g) / (period : ℚ)
    let al := (avgLoss * ((period : ℚ) - 1) + l) / (period : ℚ)
    al :: rsiLossLoop period ag al rest

/-- rsi (lines 113-134): empty when the series is not longer than the
period; otherwise `period` placeholder entries (Python None, modelled as
none) followed by the Wilder-smoothed values.  The seed averages are the
simple means of the first `period` gains/losses. -/
def rsi (values : List ℚ) (period : Nat) : List (Option ℚ) :=
  if values.length ≤ period then []
  else
    let gl := gainsLosses values
    let avgGain := ((gl.take period).map Prod.fst).sum / (period : ℚ)
    let avgLoss := ((gl.take period).map Prod.snd).sum / (period : ℚ)
    List.replicate period none ++ (rsiLoop period avgGain avgLoss (gl.drop period)).map some

/-- The trace of Wilder-smoothed average losses aligned with the numeric
entries of rsi: entry j corresponds to the rsi output entry period + j. -/
def rsiLossTrace (values : List ℚ) (period : Nat) : List ℚ :=
  if values.length ≤ period then []
  else
    let gl := gainsLosses values
    let avgGain := ((gl.take period).map Prod.fst).sum / (period : ℚ)
    let avgLoss := ((gl.take period).map Prod.snd).sum / (period : ℚ)
    rsiLossLoop period avgGain avgLoss (gl.drop period)

/-- The seed average gain of rsi: simple mean of the first period gains. -/
def rsiSeedGain (values : List ℚ) (period : Nat) : ℚ :=
  (((gainsLosses values).take period).map Prod.fst).sum / (period : ℚ)

/-- The seed average loss of rsi: simple mean of the first period losses. -/
def rsiSeedLoss (values : List ℚ) (period : Nat) : ℚ :=
  (((gainsLosses values).take period).map Prod.snd).sum / (period : ℚ)

/-- The accumulation loop of ema (lines 141-142). -/
def emaGo (k : ℚ) : ℚ → List ℚ → List ℚ
  | _, [] => []
  | prev, v :: rest =>
    let cur := v * k + prev * (1 - k)
    cur :: emaGo k cur rest

/-- ema (lines 136-143): seeded with the first value, k = 2/(span+1). -/
def ema (values : List ℚ) (span : Nat) : List ℚ :=
  match values with
  | [] => []
  | v0 :: rest => v0 :: emaGo (2 / ((span : ℚ) + 1)) v0 rest

/-- macd (lines 145-160): empty triple when the series is shorter than
slow + signal + 5; otherwise the right-aligned difference of the fast and
slow EMAs, its signal EMA, and the histogram. Python x[-n:] on a list of
length L with 0 < n ≤ L is modelled as dropping L - n elements. -/
def macd (values : List ℚ) (fast slow signal : Nat) :
    List ℚ × List ℚ × List ℚ :=
  if values.length < slow + signal + 5 then ([], [], [])
  else
    let emaFast := ema values fast
    let emaSlow := ema values slow
    let len1 := min emaFast.length emaSlow.length
    let ef := emaFast.drop (emaFast.length - len1)
    let es := emaSlow.drop (emaSlow.length - len1)
    let macdLine := (ef.zip es).map (fun p => p.1 - p.2)
    let signalLine := ema macdLine signal
    let len2 := min macdLine.length signalLine.length
    let ml := macdLine.drop (macdLine.length - len2)
    let sl := signalLine.drop (signalLine.length - len2)
    let hist := (ml.zip sl).map (fun p => p.1 - p.2)
    (ml, sl, hist)

/-! ### Signal evaluator (src/main.py, generate_signals, lines 163-223)

All fallible Python operations of the function body (negative indexing,
comparisons against None, the volume-average division) are modelled in the
Except monad, in source evaluation order.  The mode parameter stays a
string, as in the source (any string other than "conservative" selects the
aggressive branch). -/

/-- Python two-decimal fixed formatting (the momentum f-string), idealized
over exact rationals: round half-up to hundredths.  (CPython rounds the
underlying binary double half-even; on the exact inputs appearing here the
results agree.) -/
def fmt2 (q : ℚ) : String :=
  let n : ℤ := round (q * 100)
  let sign := if n < 0 then "-" else ""
  let m := n.natAbs
  sign ++ toString (m / 100) ++ "." ++ (if m % 100 < 10 then "0" else "") ++ toString (m % 100)

/-- Python one-decimal fixed formatting (the RSI f-string), idealized over
exact rationals as round half-up to tenths. -/
def fmt1 (q : ℚ) : String :=
  let n : ℤ := round (q * 10)
  let sign := if n < 0 then "-" else ""
  let m := n.natAbs
  sign ++ toString (m / 10) ++ "." ++ toString (m % 10)

/-- The conservative-mode bullish finding text (line 200). -/
def consBullMsg (symbol : String) (momentum : ℚ) : String :=
  "✅ " ++ symbol ++ ": MACD bullish cross, RSI↑>50, wolumen↑, mom " ++ fmt2 momentum ++ "%"

/-- The aggressive-mode bullish finding text (line 203). -/
def aggBullMsg (symbol : String) (momentum : ℚ) : String :=
  "⚡ " ++ symbol ++ ": wczesny sygnał (MACD/RSI/Volume), mom " ++ fmt2 momentum ++ "%"

/-- The weakening warning text (line 206). -/
def weakMsg (symbol : String) : String :=
  "⚠️ " ++ symbol ++ ": możliwe osłabienie (MACD/RSI/mom)"

/-- The overbought finding text (line 210). -/
def obMsg (symbol : String) (rNow : ℚ) : String :=
  "🧭 " ++ symbol ++ ": RSI " ++ fmt1 rNow ++ " (overbought)"

/-- The oversold finding text (line 212). -/
def osMsg (symbol : String) (rNow : ℚ) : String :=
  "🧭 " ++ symbol ++ ": RSI " ++ fmt1 rNow ++ " (oversold)"

/-- Python l[-1]: IndexError on an empty list. -/
def lastE {α : Type _} (l : List α) : Except Err α :=
  match l.getLast? with
  | some a => .ok a
  | none => .error .indexError

/-- Python "l[-2] if len(l) > 1 else l[-1]" (lines 175, 177, 179, 181). -/
def prevE {α : Type _} (l : List α) : Except Err α :=
  if 1 < l.length then
    match l[l.length - 2]? with
    | some a => .ok a
    | none => .error .indexError
  else lastE l

/-- Python l[-k] for k > 0: IndexError when the list is shorter than k. -/
def negE {α : Type _} (l : List α) (k : Nat) : Except Err α :=
  if 0 < k ∧ k ≤ l.length then
    match l[l.length - k]? with
    | some a => .ok a
    | none => .error .indexError
  else .error .indexError

/-- Forcing an RSI entry into a numeric comparison: Python raises a
TypeError when the entry is None. -/
def qval (x : Option ℚ) : Except Err ℚ :=
  match x with
  | some q => .ok q
  | none => .error .typeError

/-- The derived quantities of generate_signals (lines 173-212), computed
once; the rule branches and message construction are pure given these. -/
structure SigCtx where
  momentum : ℚ
  macdBullCross : Bool
  macdBearCross : Bool
  rsiRebound : Bool
  volSpike : Bool
  weaken : Bool
  rsiOverbought : Bool
  rsiOversold : Bool
  rNowVal : ℚ
deriving DecidableEq, Repr

/-- Lines 173-196 and the fallible parts of lines 205-212, in source
evaluation order: indexing of the indicator tails, the latest volume and
its 20-bar simple average, the 3-bar momentum, the cross/rebound/extreme
predicates (comparisons force the RSI entries, raising TypeError on None),
and the lazily evaluated weakening condition of line 205. -/
def extractCtx (r : List (Option ℚ)) (macdLine signalLine hist : List ℚ)
    (closes volumes : List ℚ) : Except Err SigCtx := do
  let _lastClose ← lastE closes
  let rNow ← lastE r
  let rPrev ← prevE r
  let macdNow ← lastE macdLine
  let macdPrev ← prevE macdLine
  let signalNow ← lastE signalLine
  let signalPrev ← prevE signalLine
  let _histNow ← lastE hist
  let _histPrev ← prevE hist
  let vol ← lastE volumes
  let sma20 ←
    if 20 ≤ volumes.length then
      pure ((volumes.drop (volumes.length - 20)).sum / 20)
    else if volumes.length = 0 then
      throw Err.zeroDivisionError
    else
      pure (volumes.sum / (volumes.length : ℚ))
  let volSpike := decide (3 / 2 * sma20 < vol)
  let c4 ← negE closes 4
  let momentum ←
    if c4 ≠ 0 then do
      let cLast ← lastE closes
      pure ((cLast - c4) / c4 * 100)
    else
      pure (0 : ℚ)
  let macdBullCross := decide (macdPrev ≤ signalPrev) && decide (signalNow < macdNow)
  let macdBearCross := decide (signalPrev ≤ macdPrev) && decide (macdNow < signalNow)
  let rsiRebound ← do
    let rp ← qval rPrev
    if rp < 50 then do
      let rn ← qval rNow
      pure (decide (50 ≤ rn))
    else
      pure false
  let rn ← qval rNow
  let rsiOverbought := decide (70 ≤ rn)
  let rsiOversold := decide (rn ≤ 30)
  let weaken ←
    if macdBearCross then pure true
    else if volSpike then pure false
    else if momentum < -1 then do
      let rn2 ← qval rNow
      let rp2 ← qval rPrev
      pure (decide (rn2 < rp2))
    else pure false
  return { momentum, macdBullCross, macdBearCross, rsiRebound, volSpike,
           weaken, rsiOverbought, rsiOversold, rNowVal := rn }

/-- The rule branches (lines 198-212): the mode-dependent bullish finding,
then the mode-independent warning and RSI-extreme findings, in append
order. -/
def buildOut (mode symbol : String) (c : SigCtx) : List String :=
  (if mode = "conservative" then
    if c.macdBullCross && c.rsiRebound && c.volSpike && decide ((1 : ℚ) < c.momentum) then
      [consBullMsg symbol c.momentum]
    else []
  else
    if c.macdBullCross || c.rsiRebound || (c.volSpike && decide ((7 : ℚ) / 10 < c.momentum)) then
      [aggBullMsg symbol c.momentum]
    else [])
  ++ (if c.weaken then [weakMsg symbol] else [])
  ++ (if c.rsiOverbought then [obMsg symbol c.rNowVal] else [])
  ++ (if c.rsiOversold then [osMsg symbol c.rNowVal] else [])

/-- The deduplication loop (lines 216-222): keep a finding only if its
exact text has not been seen before.  (The source also computes an unused
key from the text before the colon; it has no effect and is omitted.) -/
def dedupGo (seen : List String) : List String → List String
  | [] => []
  | s :: rest =>
    if s ∈ seen then dedupGo seen rest
    else s :: dedupGo (s :: seen) rest

/-- uniq-building of generate_signals, starting from an empty seen set. -/
def uniqDedup (out : List String) : List String := dedupGo [] out

/-- generate_signals (lines 163-223): fewer than 60 closes, or an empty
RSI or MACD histogram, yields no findings; otherwise the deduplicated
finding texts of the rule branches (or the Python exception the body would
raise). -/
def generate_signals (symbol : String) (closes volumes : List ℚ) (mode : String) :
    Except Err (List String) :=
  if closes.length < 60 then .ok []
  else
    let r := rsi closes 14
    let m := macd closes 12 26 9
    if r = [] ∨ m.2.2 = [] then .ok []
    else
      (extractCtx r m.1 m.2.1 m.2.2 closes volumes).map
        (fun c => uniqDedup (buildOut mode symbol c))

/-! ### Scan orchestrator (src/main.py, scan, lines 257-310, and main, 312-317)

A candle row is the provider's kline row; each cell is some q when Python
float() would parse it and none when it would raise ValueError; a missing
cell (row shorter than the index) is an IndexError.  The fetch oracle maps
a symbol to the row list get_klines returns (a failed fetch returns []). -/

/-- Python float(k[i]) on a kline row (lines 285-286). -/
def parseCell (row : List (Option ℚ)) (i : Nat) : Except Err ℚ :=
  match row[i]? with
  | none => .error .indexError
  | some none => .error .valueError
  | some (some q) => .ok q

/-- A Python list comprehension over a fallible element operation: the
first raising element aborts the whole construction. -/
def mapME {α β : Type _} (f : α → Except Err β) : List α → Except Err (List β)
  | [] => .ok []
  | a :: l => do
    let b ← f a
    let bs ← mapME f l
    return b :: bs

/-- The body of the per-symbol loop (lines 280-289): skip the symbol when
the fetch produced no data or fewer than 30 rows; otherwise parse closes
(column 4) and volumes (column 5) and evaluate the signals.  none marks a
skipped symbol; an Except error is an uncaught Python exception. -/
def scanSymbol (mode : String) (sym : String) (kl : List (List (Option ℚ))) :
    Except Err (Option (List String)) :=
  if kl = [] ∨ kl.length < 30 then .ok none
  else do
    let closes ← mapME (fun k => parseCell k 4) kl
    let volumes ← mapME (fun k => parseCell k 5) kl
    let sigs ← generate_signals sym closes volumes mode
    return some sigs

/-- The per-symbol loop of scan (lines 278-292): accumulates the alert
texts in symbol order together with the count of symbols checked.  An
exception in one symbol's body aborts the remainder of the loop, exactly
as an uncaught exception would in the source. -/
def scanLoop (fetch : String → List (List (Option ℚ))) (mode : String) :
    List String → Except Err (List String × Nat)
  | [] => .ok ([], 0)
  | sym :: rest => do
    let res ← scanSymbol mode sym (fetch sym)
    let tail ← scanLoop fetch mode rest
    match res with
    | none => return (tail.1, tail.2)
    | some sigs => return (sigs ++ tail.1, tail.2 + 1)

/-- main (lines 312-317): the whole cycle runs under a top-level handler
that logs any exception and returns normally, so the process never
crashes; an aborted cycle surfaces as none. -/
def mainRun (fetch : String → List (List (Option ℚ))) (mode : String)
    (symbols : List String) : Option (List String × Nat) :=
  match scanLoop fetch mode symbols with
  | .ok res => some res
  | .error _ => none

/-! ### Notification batcher (src/main.py, scan, lines 294-305) -/

/-- Python str.strip(): remove leading and trailing whitespace. -/
def strip (s : String) : String :=
  String.mk ((((s.data.dropWhile Char.isWhitespace).reverse).dropWhile
    Char.isWhitespace).reverse)

/-- Lines joined the way the batcher appends them: each followed by a
newline. -/
def joinLines : List String → String
  | [] => ""
  | l :: ls => l ++ "\n" ++ joinLines ls

/-- The chunking loop (lines 298-305): if appending the next alert line
(plus its newline) would push the chunk past 3800 characters, emit the
chunk and start a fresh one from the header; after the last line the final
chunk is emitted if it strips to something non-empty. -/
def batchGo (header chunk : String) : List String → List String
  | [] => if strip chunk = "" then [] else [chunk]
  | line :: rest =>
    if 3800 < chunk.length + line.length + 1 then
      chunk :: batchGo header (header ++ line ++ "\n") rest
    else
      batchGo header (chunk ++ line ++ "\n") rest

/-- The batcher: with no alerts nothing is sent at all (line 295's guard);
otherwise chunking starts from a chunk holding just the header. -/
def batch (header : String) (alerts : List String) : List String :=
  if alerts = [] then [] else batchGo header header alerts

/-- The header built at line 296. -/
def scanHeader (interval mode : String) (checked : Nat) (ts : String) : String :=
  "📈 Binance scan (" ++ interval ++ ", " ++ mode ++ ") — " ++ toString checked
    ++ " par\n" ++ ts ++ "\n\n"

/-! ### Specification-side definitions and concrete example inputs -/

/-- First-occurrence deduplication, the reference specification the uniq
loop of generate_signals is compared against: keep the head, drop its
later duplicates, recurse. -/
def firstDedup : List String → List String
  | [] => []
  | s :: rest => s :: firstDedup (rest.filter (fun t => t ≠ s))
termination_by l => l.length
decreasing_by
  simp only [List.length_cons]
  exact Nat.lt_succ_of_le (List.length_filter_le _ _)

/-- A kline cell from which Python float(k[i]) succeeds. -/
def cellOK (row : List (Option ℚ)) (i : Nat) : Bool :=
  match row[i]? with
  | some (some _) => true
  | _ => false

/-- Candle data on which the per-symbol parsing loops cannot raise. -/
def wellFormed (kl : List (List (Option ℚ))) : Prop :=
  ∀ row ∈ kl, cellOK row 4 = true ∧ cellOK row 5 = true

instance (kl : List (List (Option ℚ))) : Decidable (wellFormed kl) := by
  unfold wellFormed
  infer_instance

/-- A 60-bar close series: a steady decline by 1 from 1000 for 59 bars,
then a jump to 962 on the final bar (bullish cross, RSI rebound and
momentum 225/118 percent at the last bar). -/
def exCloses : List ℚ := ((List.range 59).map (fun i => (1000 - (i : ℤ) : ℚ))) ++ [962]

/-- Volumes for exCloses: flat 100 with a 10x spike on the final bar. -/
def exVols : List ℚ := List.replicate 59 (100 : ℚ) ++ [1000]

/-- A constant 60-bar close series (every indicator well defined). -/
def flatCloses : List ℚ := List.replicate 60 (1 : ℚ)

/-- An ascending 16-bar series: one numeric RSI entry, average loss 0. -/
def upCloses : List ℚ := (List.range 16).map (fun i => (i : ℚ))

/-- Responses for a call whose first attempt is answered with a blocking
403 (access denied) and whose later attempts succeed. -/
def blockedResp : Nat → Resp := fun i => if i = 0 then .status 403 none else .ok 0

/-- Responses for a call whose first attempt is answered with a 429 that
carries a Retry-After of 7 seconds, and whose later attempts succeed. -/
def rlResp : Nat → Resp := fun i => if i = 0 then .status 429 (some 7) else .ok 0

/-- A single alert line of 4000 characters (longer than a whole block). -/
def bigLine : String := String.mk (List.replicate 4000 'a')

/-- A 3000-character alert line. -/
def fitLineA : String := String.mk (List.replicate 3000 'a')

/-- A 1000-character alert line. -/
def fitLineB : String := String.mk (List.replicate 1000 'b')

/-- A kline row whose close cell (index 4) is not parseable as a float. -/
def badRow : List (Option ℚ) := [some 0, some 0, some 0, some 0, none, some 1]

/-- A fully parseable kline row. -/
def goodRow : List (Option ℚ) := [some 0, some 0, some 0, some 0, some 1, some 1]

/-- A fetch oracle: symbol S1 returns 30 rows of malformed candle data,
every other symbol returns 30 well-formed rows. -/
def badFetch : String → List (List (Option ℚ)) :=
  fun s => if s = "S1" then List.replicate 30 badRow else List.replicate 30 goodRow

/-- A fetch oracle: symbol S1's fetch fails (empty result), every other
symbol returns 30 well-formed rows. -/
def skipFetch : String → List (List (Option ℚ)) :=
  fun s => if s = "S1" then [] else List.replicate 30 goodRow

/-- An Except computation that does not raise. -/
def isOk {α : Type _} (x : Except Err α) : Prop := ∃ a, x = .ok a

/-! ## Theorems -/

set_option maxRecDepth 400000

/-! ### Fetch client: C1 and C2 -/

theorem httpGo_ok {url : String} {rs : Nat → Resp} {n attempt b : Nat}
    (h : rs attempt = .ok b) :
    httpGo url rs (n + 1) attempt = (some b, [(url, none)]) := by
  rw [httpGo, h]

theorem httpGo_rate {url : String} {rs : Nat → Resp} {n attempt : Nat}
    {ra : Option Nat} (h : rs attempt = .status 429 ra) :
    httpGo url rs (n + 1) attempt =
      ((httpGo url rs n (attempt + 1)).1,
        (url, some 2) :: (httpGo url rs n (attempt + 1)).2) := by
  rw [httpGo, h]
  rfl

theorem httpGo_err {url : String} {rs : Nat → Resp} {n attempt code : Nat}
    {ra : Option Nat} (h : rs attempt = .status code ra) (hc : code ≠ 429) :
    httpGo url rs (n + 1) attempt =
      ((httpGo url rs n (attempt + 1)).1,
        (url, some (RETRY_BACKOFF.getD (min attempt (RETRY_BACKOFF.length - 1)) 0)) ::
          (httpGo url rs n (attempt + 1)).2) := by
  rw [httpGo, h]
  simp [hc]

theorem httpGo_net {url : String} {rs : Nat → Resp} {n attempt : Nat}
    (h : rs attempt = .netErr) :
    httpGo url rs (n + 1) attempt =
      ((httpGo url rs n (attempt + 1)).1,
        (url, some (RETRY_BACKOFF.getD (min attempt (RETRY_BACKOFF.length - 1)) 0)) ::
          (httpGo url rs n (attempt + 1)).2) := by
  rw [httpGo, h]

theorem httpGo_trace_url {url : String} {rs : Nat → Resp} :
    ∀ rem attempt, ∀ e ∈ (httpGo url rs rem attempt).2, e.1 = url := by
  intro rem
  induction rem with
  | zero => intro attempt e he; simp [httpGo] at he
  | succ n ih =>
    intro attempt e he
    cases hr : rs attempt with
    | ok b =>
      rw [httpGo_ok hr] at he
      simp only [List.mem_singleton] at he
      rw [he]
    | status code ra =>
      by_cases hc : code = 429
      · subst hc
        rw [httpGo_rate hr] at he
        rcases List.mem_cons.mp he with h | h
        · rw [h]
        · exact ih (attempt + 1) e h
      · rw [httpGo_err hr hc] at he
        rcases List.mem_cons.mp he with h | h
        · rw [h]
        · exact ih (attempt + 1) e h
    | netErr =>
      rw [httpGo_net hr] at he
      rcases List.mem_cons.mp he with h | h
      · rw [h]
      · exact ih (attempt + 1) e h

theorem httpGo_trace_len {url : String} {rs : Nat → Resp} :
    ∀ rem attempt, (httpGo url rs rem attempt).2.length ≤ rem := by
  intro rem
  induction rem with
  | zero => intro attempt; simp [httpGo]
  | succ n ih =>
    intro attempt
    cases hr : rs attempt with
    | ok b => rw [httpGo_ok hr]; simp
    | status code ra =>
      by_cases hc : code = 429
      · subst hc
        rw [httpGo_rate hr]
        simpa using ih (attempt + 1)
      · rw [httpGo_err hr hc]
        simpa using ih (attempt + 1)
    | netErr =>
      rw [httpGo_net hr]
      simpa using ih (attempt + 1)

theorem httpGo_trace_ne_nil {url : String} {rs : Nat → Resp} {rem attempt : Nat}
    (h : 0 < rem) : (httpGo url rs rem attempt).2 ≠ [] := by
  cases rem with
  | zero => exact absurd h (by simp)
  | succ n =>
    cases hr : rs attempt with
    | ok b => rw [httpGo_ok hr]; simp
    | status code ra =>
      by_cases hc : code = 429
      · subst hc; rw [httpGo_rate hr]; simp
      · rw [httpGo_err hr hc]; simp
    | netErr => rw [httpGo_net hr]; simp

/-- C1 (amended): the fetch client has no endpoint pool: a call contacts a
single URL.  When the first response is a blocking status (any HTTP error
other than 429, e.g. 403), the client sleeps the 1-second backoff and the
very next attempt targets the SAME endpoint; every attempt of the call
targets that endpoint, and at most 3 attempts are made. -/
theorem http_blocking_no_failover (url : String) (rs : Nat → Resp)
    (code : Nat) (ra : Option Nat) (h0 : rs 0 = .status code ra) (hc : code ≠ 429) :
    ∃ rest, (http_get url rs).2 = (url, some 1) :: rest ∧ rest ≠ [] ∧
      (∀ e ∈ (http_get url rs).2, e.1 = url) ∧ (http_get url rs).2.length ≤ 3 := by
  have hmain : http_get url rs =
      ((httpGo url rs 2 1).1, (url, some 1) :: (httpGo url rs 2 1).2) := by
    show httpGo url rs (2 + 1) 0 = _
    rw [httpGo_err h0 hc]
    rfl
  refine ⟨(httpGo url rs 2 1).2, by rw [hmain], httpGo_trace_ne_nil (by norm_num), ?_, ?_⟩
  · exact httpGo_trace_url MAX_RETRIES 0
  · rw [hmain]
    simpa using httpGo_trace_len 2 1

/-- C1 (counterexample to the claim as stated): with the pool the claim
posits, a blocking 403 from endpoint A should make the very next attempt
target endpoint B with no further attempt against A; in the code the very
next attempt targets A again (the trace lists A twice), because there is
no pool to advance through. -/
theorem http_blocking_counterexample :
    http_get "A" blockedResp = (some 0, [("A", some 1), ("A", none)]) ∧
      (http_get "A" blockedResp).2.map Prod.fst = ["A", "A"] := by
  constructor <;> decide

/-- C1 witness: the amended theorem applied to the concrete 403 trace. -/
theorem http_blocking_witness :
    blockedResp 0 = .status 403 none ∧ 403 ≠ 429 ∧
      (∃ rest, (http_get "A" blockedResp).2 = ("A", some 1) :: rest ∧ rest ≠ [] ∧
        (∀ e ∈ (http_get "A" blockedResp).2, e.1 = "A") ∧
        (http_get "A" blockedResp).2.length ≤ 3) :=
  ⟨by decide, by decide,
    http_blocking_no_failover "A" blockedResp 403 none (by decide) (by decide)⟩

/-- C2 (amended): a rate-limit (429) response makes the client retry the
same endpoint, but after a FIXED 2-second pause: a server-supplied
Retry-After duration is ignored by http_get (only the Telegram sender
honors Retry-After). -/
theorem http_rate_limit_fixed_pause (url : String) (rs : Nat → Resp)
    (ra : Option Nat) (h0 : rs 0 = .status 429 ra) :
    ∃ rest, (http_get url rs).2 = (url, some 2) :: rest ∧ rest ≠ [] ∧
      (∀ e ∈ (http_get url rs).2, e.1 = url) := by
  have hmain : http_get url rs =
      ((httpGo url rs 2 1).1, (url, some 2) :: (httpGo url rs 2 1).2) := by
    show httpGo url rs (2 + 1) 0 = _
    rw [httpGo_rate h0]
  exact ⟨(httpGo url rs 2 1).2, by rw [hmain], httpGo_trace_ne_nil (by norm_num),
    httpGo_trace_url MAX_RETRIES 0⟩

/-- C2 (counterexample to the claim as stated): a 429 response carrying a
Retry-After of 7 seconds is followed by a 2-second pause, not the
server-supplied 7 seconds, before the retry. -/
theorem http_rate_limit_counterexample :
    http_get "A" rlResp = (some 0, [("A", some 2), ("A", none)]) ∧
      rlResp 0 = .status 429 (some 7) ∧ (2 : Nat) ≠ 7 := by
  refine ⟨by decide, by decide, by decide⟩

/-- C2 witness: the amended theorem applied to the concrete 429 trace. -/
theorem http_rate_limit_witness :
    rlResp 0 = .status 429 (some 7) ∧
      (∃ rest, (http_get "A" rlResp).2 = ("A", some 2) :: rest ∧ rest ≠ [] ∧
        (∀ e ∈ (http_get "A" rlResp).2, e.1 = "A")) :=
  ⟨by decide, http_rate_limit_fixed_pause "A" rlResp (some 7) (by decide)⟩

/-! ### Indicator engine: structure lemmas, C10, C3, C4 -/

theorem emaGo_length (k : ℚ) : ∀ (l : List ℚ) (prev : ℚ), (emaGo k prev l).length = l.length := by
  intro l
  induction l with
  | nil => intro prev; rfl
  | cons v rest ih => intro prev; simp [emaGo, ih]

theorem ema_length (values : List ℚ) (span : Nat) : (ema values span).length = values.length := by
  cases values with
  | nil => rfl
  | cons v rest => simp [ema, emaGo_length]

theorem gainsLosses_length (values : List ℚ) :
    (gainsLosses values).length = values.length - 1 := by
  simp only [gainsLosses, List.length_map, List.length_zip, List.length_tail]
  omega

theorem gainsLosses_nonneg (values : List ℚ) :
    ∀ pr ∈ gainsLosses values, 0 ≤ pr.1 ∧ 0 ≤ pr.2 := by
  intro pr hpr
  simp only [gainsLosses, List.mem_map] at hpr
  obtain ⟨q, _, hq⟩ := hpr
  rw [← hq]
  exact ⟨le_max_right _ _, le_max_right _ _⟩

theorem rsiLoop_length (p : Nat) :
    ∀ (gls : List (ℚ × ℚ)) (ag al : ℚ), (rsiLoop p ag al gls).length = gls.length := by
  intro gls
  induction gls with
  | nil => intro ag al; rfl
  | cons pr rest ih =>
    intro ag al
    obtain ⟨g, l⟩ := pr
    simp [rsiLoop, ih]

theorem rsiLoop_cons (p : Nat) (g l ag al : ℚ) (rest : List (ℚ × ℚ)) :
    rsiLoop p ag al ((g, l) :: rest) =
      (if (al * ((p : ℚ) - 1) + l) / (p : ℚ) = 0 then 100
       else 100 - 100 / (1 + ((ag * ((p : ℚ) - 1) + g) / (p : ℚ)) /
         ((al * ((p : ℚ) - 1) + l) / (p : ℚ)))) ::
      rsiLoop p ((ag * ((p : ℚ) - 1) + g) / (p : ℚ))
        ((al * ((p : ℚ) - 1) + l) / (p : ℚ)) rest := rfl

theorem rsiLossLoop_cons (p : Nat) (g l ag al : ℚ) (rest : List (ℚ × ℚ)) :
    rsiLossLoop p ag al ((g, l) :: rest) =
      ((al * ((p : ℚ) - 1) + l) / (p : ℚ)) ::
      rsiLossLoop p ((ag * ((p : ℚ) - 1) + g) / (p : ℚ))
        ((al * ((p : ℚ) - 1) + l) / (p : ℚ)) rest := rfl

theorem rsi_eq (values : List ℚ) (period : Nat) (h : period < values.length) :
    rsi values period =
      List.replicate period none ++
        (rsiLoop period (rsiSeedGain values period) (rsiSeedLoss values period)
          ((gainsLosses values).drop period)).map some := by
  rw [rsi, if_neg (not_le.mpr h)]
  rfl

theorem rsiLossTrace_eq (values : List ℚ) (period : Nat) (h : period < values.length) :
    rsiLossTrace values period =
      rsiLossLoop period (rsiSeedGain values period) (rsiSeedLoss values period)
        ((gainsLosses values).drop period) := by
  rw [rsiLossTrace, if_neg (not_le.mpr h)]
  rfl

theorem rsiSeedGain_nonneg (values : List ℚ) (period : Nat) :
    0 ≤ rsiSeedGain values period := by
  apply div_nonneg _ (by positivity)
  apply List.sum_nonneg
  intro a ha
  simp only [List.mem_map] at ha
  obtain ⟨q, hq, hqa⟩ := ha
  rw [← hqa]
  exact (gainsLosses_nonneg values q (List.mem_of_mem_take hq)).1

theorem rsiSeedLoss_nonneg (values : List ℚ) (period : Nat) :
    0 ≤ rsiSeedLoss values period := by
  apply div_nonneg _ (by positivity)
  apply List.sum_nonneg
  intro a ha
  simp only [List.mem_map] at ha
  obtain ⟨q, hq, hqa⟩ := ha
  rw [← hqa]
  exact (gainsLosses_nonneg values q (List.mem_of_mem_take hq)).2

/-- C10 (confirmed): for a series of length n > period, rsi returns a list
of length n - 1 whose first `period` entries are the None placeholder; for
n = period + 1 the output is non-empty yet holds no numeric value, so
non-emptiness of the output does not imply a defined RSI. -/
theorem rsi_shape (values : List ℚ) (period : Nat) (hp : 0 < period)
    (h : period < values.length) :
    (rsi values period).length = values.length - 1 ∧
    (rsi values period).take period = List.replicate period none ∧
    (values.length = period + 1 →
      rsi values period ≠ [] ∧ ∀ x ∈ rsi values period, x = none) := by
  have heq := rsi_eq values period h
  have hgl := gainsLosses_length values
  refine ⟨?_, ?_, ?_⟩
  · rw [heq]
    simp only [List.length_append, List.length_replicate, List.length_map,
      rsiLoop_length, List.length_drop, hgl]
    omega
  · rw [heq]
    exact List.take_left' (List.length_replicate _ _)
  · intro hlen
    have hdrop : (gainsLosses values).drop period = [] :=
      List.drop_eq_nil_of_le (by omega)
    have hnil : rsi values period = List.replicate period none := by
      rw [heq, hdrop]
      simp [rsiLoop]
    rw [hnil]
    constructor
    · intro hcon
      have hlen0 := congrArg List.length hcon
      simp only [List.length_replicate, List.length_nil] at hlen0
      omega
    · intro x hx
      exact List.eq_of_mem_replicate hx

/-- C10 witness: a 15-value series at period 14 produces 14 placeholders
and nothing else. -/
theorem rsi_shape_witness :
    0 < 14 ∧ 14 < upCloses.dropLast.length ∧
      ((rsi upCloses.dropLast 14).length = upCloses.dropLast.length - 1 ∧
        (rsi upCloses.dropLast 14).take 14 = List.replicate 14 none ∧
        (upCloses.dropLast.length = 14 + 1 →
          rsi upCloses.dropLast 14 ≠ [] ∧
          ∀ x ∈ rsi upCloses.dropLast 14, x = none)) :=
  ⟨by norm_num, by decide,
    rsi_shape upCloses.dropLast 14 (by norm_num) (by decide)⟩

theorem rsiLoop_spec (p : Nat) (hp : 0 < p) :
    ∀ (gls : List (ℚ × ℚ)) (ag al : ℚ), 0 ≤ ag → 0 ≤ al →
      (∀ pr ∈ gls, 0 ≤ pr.1 ∧ 0 ≤ pr.2) →
      ∀ (i : Nat) (r : ℚ), (rsiLoop p ag al gls)[i]? = some r →
        0 ≤ r ∧ r ≤ 100 ∧ (r = 100 ↔ (rsiLossLoop p ag al gls)[i]? = some 0) := by
  intro gls
  induction gls with
  | nil => intro ag al _ _ _ i r hr; simp [rsiLoop] at hr
  | cons pr rest ih =>
    intro ag al hag hal hmem i r hr
    obtain ⟨g, l⟩ := pr
    have hg : 0 ≤ g := (hmem (g, l) (by simp)).1
    have hl : 0 ≤ l := (hmem (g, l) (by simp)).2
    have hp1 : (1 : ℚ) ≤ (p : ℚ) := by exact_mod_cast hp
    have hppos : (0 : ℚ) < (p : ℚ) := by linarith
    have hag2 : 0 ≤ (ag * ((p : ℚ) - 1) + g) / (p : ℚ) :=
      div_nonneg (by nlinarith) hppos.le
    have hal2 : 0 ≤ (al * ((p : ℚ) - 1) + l) / (p : ℚ) :=
      div_nonneg (by nlinarith) hppos.le
    rw [rsiLoop_cons] at hr
    cases i with
    | zero =>
      rw [List.getElem?_cons_zero, Option.some_inj] at hr
      rw [rsiLossLoop_cons, List.getElem?_cons_zero, Option.some_inj]
      by_cases h0 : (al * ((p : ℚ) - 1) + l) / (p : ℚ) = 0
      · rw [if_pos h0] at hr
        refine ⟨by rw [← hr]; norm_num, by rw [← hr], ?_⟩
        constructor
        · intro _; exact h0
        · intro _; rw [← hr]
      · rw [if_neg h0] at hr
        have hrs : 0 ≤ ((ag * ((p : ℚ) - 1) + g) / (p : ℚ)) /
            ((al * ((p : ℚ) - 1) + l) / (p : ℚ)) :=
          div_nonneg hag2 hal2
        have h1rs : (1 : ℚ) ≤ 1 + ((ag * ((p : ℚ) - 1) + g) / (p : ℚ)) /
            ((al * ((p : ℚ) - 1) + l) / (p : ℚ)) := by linarith
        have hdivpos : 0 < 100 / (1 + ((ag * ((p : ℚ) - 1) + g) / (p : ℚ)) /
            ((al * ((p : ℚ) - 1) + l) / (p : ℚ))) := by positivity
        have hdivle : 100 / (1 + ((ag * ((p : ℚ) - 1) + g) / (p : ℚ)) /
            ((al * ((p : ℚ) - 1) + l) / (p : ℚ))) ≤ 100 :=
          div_le_self (by norm_num) h1rs
        refine ⟨by rw [← hr]; linarith, by rw [← hr]; linarith, ?_⟩
        constructor
        · intro h100
          rw [← hr] at h100
          exact absurd h100 (by linarith)
        · intro hzero
          exact absurd hzero h0
    | succ j =>
      rw [List.getElem?_cons_succ] at hr
      rw [rsiLossLoop_cons, List.getElem?_cons_succ]
      exact ih _ _ hag2 hal2 (fun q hq => hmem q (List.mem_cons_of_mem _ hq)) j r hr

/-- C3 (confirmed): every defined (numeric) RSI output value lies in
[0, 100], and it equals 100 exactly when the Wilder-smoothed average loss
computed at that step is 0 (output entry i is paired with entry i - period
of the average-loss trace). -/
theorem rsi_range (values : List ℚ) (period : Nat) (hp : 0 < period)
    (hlen : period < values.length) :
    ∀ (i : Nat) (r : ℚ), (rsi values period)[i]? = some (some r) →
      0 ≤ r ∧ r ≤ 100 ∧ (r = 100 ↔ (rsiLossTrace values period)[i - period]? = some 0) := by
  intro i r hr
  rw [rsi_eq values period hlen] at hr
  by_cases hi : i < period
  · rw [List.getElem?_append_left (by simpa using hi)] at hr
    rw [List.getElem?_replicate_of_lt hi] at hr
    exact absurd (Option.some_inj.mp hr) (by simp)
  · push_neg at hi
    rw [List.getElem?_append_right (by simpa using hi)] at hr
    simp only [List.length_replicate, List.getElem?_map] at hr
    have hmem : ∀ pr ∈ (gainsLosses values).drop period, 0 ≤ pr.1 ∧ 0 ≤ pr.2 :=
      fun pr hpr => gainsLosses_nonneg values pr (List.mem_of_mem_drop hpr)
    rw [rsiLossTrace_eq values period hlen]
    cases hv : (rsiLoop period (rsiSeedGain values period) (rsiSeedLoss values period)
        ((gainsLosses values).drop period))[i - period]? with
    | none =>
      rw [hv] at hr
      exact absurd hr (by simp)
    | some v =>
      rw [hv] at hr
      have hvr : v = r := Option.some_inj.mp (Option.some_inj.mp hr)
      rw [hvr] at hv
      exact rsiLoop_spec period hp _ _ _ (rsiSeedGain_nonneg values period)
        (rsiSeedLoss_nonneg values period) hmem (i - period) r hv

/-- C3 witness: the ascending 16-value series at period 14 has one defined
RSI value, 100, at index 14, and the average loss at that step is 0. -/
theorem rsi_range_witness :
    0 < 14 ∧ 14 < upCloses.length ∧ (rsi upCloses 14)[14]? = some (some 100) ∧
      (0 ≤ (100 : ℚ) ∧ (100 : ℚ) ≤ 100 ∧
        ((100 : ℚ) = 100 ↔ (rsiLossTrace upCloses 14)[14 - 14]? = some 0)) :=
  ⟨by norm_num, by decide, by with_unfolding_all rfl,
    rsi_range upCloses 14 (by norm_num) (by decide) 14 100
      (by with_unfolding_all rfl)⟩

/-- C4 (confirmed): for series shorter than the required minimums, rsi and
macd return empty results, and the evaluator on fewer than 60 closes
returns an empty finding list without raising. -/
theorem short_input_empty :
    (∀ (values : List ℚ) (period : Nat), values.length ≤ period →
      rsi values period = []) ∧
    (∀ (values : List ℚ) (fast slow signal : Nat),
      values.length < slow + signal + 5 → macd values fast slow signal = ([], [], [])) ∧
    (∀ (symbol : String) (closes volumes : List ℚ) (mode : String),
      closes.length < 60 → generate_signals symbol closes volumes mode = .ok []) := by
  refine ⟨?_, ?_, ?_⟩
  · intro v p h
    rw [rsi, if_pos h]
  · intro v f s g h
    rw [macd, if_pos h]
  · intro sym c v m h
    rw [generate_signals, if_pos h]

/-- C4 witness: concrete short series for all three functions. -/
theorem short_input_empty_witness :
    ([(1 : ℚ), 2].length ≤ 14 ∧ rsi [1, 2] 14 = []) ∧
    ([(1 : ℚ)].length < 26 + 9 + 5 ∧ macd [1] 12 26 9 = ([], [], [])) ∧
    ([(1 : ℚ)].length < 60 ∧ generate_signals "BTCUSDT" [1] [] "aggressive" = .ok []) :=
  ⟨⟨by norm_num, short_input_empty.1 [1, 2] 14 (by norm_num)⟩,
   ⟨by norm_num, short_input_empty.2.1 [1] 12 26 9 (by norm_num)⟩,
   ⟨by norm_num, short_input_empty.2.2 "BTCUSDT" [1] [] "aggressive" (by norm_num)⟩⟩


/-! ### Signal evaluator: deduplication (C6) and rule-mode relation (C5) -/

theorem emap_ok {α β : Type _} (a : α) (f : α → β) :
    (Except.ok a : Except Err α).map f = .ok (f a) := rfl

theorem emap_error {α β : Type _} (e : Err) (f : α → β) :
    (Except.error e : Except Err α).map f = .error e := rfl

theorem dedupGo_mem : ∀ (l seen : List String) (s : String),
    s ∈ dedupGo seen l ↔ s ∈ l ∧ s ∉ seen := by
  intro l
  induction l with
  | nil => intro seen s; simp [dedupGo]
  | cons t rest ih =>
    intro seen s
    rw [dedupGo]
    by_cases ht : t ∈ seen
    · rw [if_pos ht, ih]
      constructor
      · rintro ⟨hs, hns⟩
        exact ⟨List.mem_cons_of_mem _ hs, hns⟩
      · rintro ⟨hs, hns⟩
        rcases List.mem_cons.mp hs with h | h
        · exact absurd (h ▸ ht) hns
        · exact ⟨h, hns⟩
    · rw [if_neg ht]
      constructor
      · intro hs
        rcases List.mem_cons.mp hs with h | h
        · exact ⟨h ▸ List.mem_cons_self t rest, h ▸ ht⟩
        · obtain ⟨h1, h2⟩ := (ih (t :: seen) s).mp h
          exact ⟨List.mem_cons_of_mem _ h1, fun hc => h2 (List.mem_cons_of_mem _ hc)⟩
      · rintro ⟨hs, hns⟩
        rcases List.mem_cons.mp hs with h | h
        · exact h ▸ List.mem_cons_self _ _
        · by_cases hst : s = t
          · exact hst ▸ List.mem_cons_self _ _
          · exact List.mem_cons_of_mem _
              ((ih (t :: seen) s).mpr ⟨h, by simp [hst, hns]⟩)

theorem dedupGo_nodup : ∀ (l seen : List String), (dedupGo seen l).Nodup := by
  intro l
  induction l with
  | nil => intro seen; simp [dedupGo]
  | cons t rest ih =>
    intro seen
    rw [dedupGo]
    by_cases ht : t ∈ seen
    · rw [if_pos ht]
      exact ih seen
    · rw [if_neg ht]
      refine List.nodup_cons.mpr ⟨?_, ih (t :: seen)⟩
      intro hc
      exact ((dedupGo_mem rest (t :: seen) t).mp hc).2 (List.mem_cons_self _ _)

theorem dedupGo_eq_firstDedup : ∀ (l seen : List String),
    dedupGo seen l = firstDedup (l.filter (fun s => s ∉ seen)) := by
  intro l
  induction l with
  | nil => intro seen; simp [dedupGo, firstDedup]
  | cons t rest ih =>
    intro seen
    rw [dedupGo]
    by_cases ht : t ∈ seen
    · rw [if_pos ht]
      have hf : decide (t ∉ seen) = false := by simp [ht]
      rw [List.filter_cons, hf]
      simp only [Bool.false_eq_true, if_false]
      exact ih seen
    · rw [if_neg ht]
      have hf : decide (t ∉ seen) = true := by simp [ht]
      rw [List.filter_cons, hf]
      simp only [if_true]
      rw [firstDedup]
      congr 1
      rw [ih (t :: seen), List.filter_filter]
      congr 1
      apply List.filter_congr
      intro x _
      simp only [List.mem_cons, decide_not]
      by_cases hxt : x = t <;> by_cases hxs : x ∈ seen <;> simp [hxt, hxs]

theorem uniqDedup_mem (l : List String) (s : String) : s ∈ uniqDedup l ↔ s ∈ l := by
  rw [uniqDedup, dedupGo_mem]
  simp

theorem uniqDedup_eq_firstDedup (l : List String) : uniqDedup l = firstDedup l := by
  rw [uniqDedup, dedupGo_eq_firstDedup]
  congr 1
  rw [List.filter_eq_self]
  intro a _
  simp

/-- C6 (confirmed): the evaluator is deterministic (as a pure function of
its inputs, repeated calls agree definitionally), every successfully
returned finding list is duplicate-free, and the uniq pass of the
evaluator equals first-occurrence deduplication, so order of first
occurrence is preserved. -/
theorem evaluate_dedup (symbol : String) (closes volumes : List ℚ) (mode : String) :
    generate_signals symbol closes volumes mode = generate_signals symbol closes volumes mode ∧
    (∀ l, generate_signals symbol closes volumes mode = .ok l → l.Nodup) ∧
    (∀ out : List String, uniqDedup out = firstDedup out) := by
  refine ⟨rfl, ?_, uniqDedup_eq_firstDedup⟩
  intro l hl
  rw [generate_signals] at hl
  by_cases h60 : closes.length < 60
  · rw [if_pos h60] at hl
    cases hl
    exact List.nodup_nil
  · rw [if_neg h60] at hl
    by_cases hg : rsi closes 14 = [] ∨ (macd closes 12 26 9).2.2 = []
    · rw [if_pos hg] at hl
      cases hl
      exact List.nodup_nil
    · rw [if_neg hg] at hl
      cases hext : extractCtx (rsi closes 14) (macd closes 12 26 9).1
          (macd closes 12 26 9).2.1 (macd closes 12 26 9).2.2 closes volumes with
      | error e =>
        rw [hext, emap_error] at hl
        cases hl
      | ok ctx =>
        rw [hext, emap_ok] at hl
        cases hl
        exact dedupGo_nodup _ []

/-- C6 witness: the theorem applied at a concrete input (result ok and
duplicate-free) and at a concrete list with a duplicate. -/
theorem evaluate_dedup_witness :
    ([] : List String).Nodup ∧ uniqDedup ["a", "b", "a"] = firstDedup ["a", "b", "a"] :=
  ⟨(evaluate_dedup "B" [1] [] "aggressive").2.1 [] (by with_unfolding_all rfl),
   (evaluate_dedup "B" [1] [] "aggressive").2.2 ["a", "b", "a"]⟩

theorem buildOut_agg_bull (symbol : String) (c : SigCtx)
    (hbull : c.macdBullCross = true) :
    aggBullMsg symbol c.momentum ∈ buildOut "aggressive" symbol c := by
  rw [buildOut, if_neg (by decide : ¬("aggressive" = "conservative"))]
  have hagg : (c.macdBullCross || c.rsiRebound ||
      (c.volSpike && decide ((7 : ℚ) / 10 < c.momentum))) = true := by
    simp [hbull]
  rw [if_pos hagg]
  simp only [List.mem_append]
  exact Or.inl (Or.inl (Or.inl (List.mem_singleton.mpr rfl)))

theorem buildOut_cons_rel (symbol : String) (c : SigCtx) :
    ∀ s ∈ buildOut "conservative" symbol c,
      s ∈ buildOut "aggressive" symbol c ∨
        (s = consBullMsg symbol c.momentum ∧
          aggBullMsg symbol c.momentum ∈ buildOut "aggressive" symbol c) := by
  intro s hs
  rw [buildOut, if_pos rfl] at hs
  simp only [List.mem_append] at hs
  have hcommon : (s ∈ (if c.weaken = true then [weakMsg symbol] else []) ∨
      s ∈ (if c.rsiOverbought = true then [obMsg symbol c.rNowVal] else []) ∨
      s ∈ (if c.rsiOversold = true then [osMsg symbol c.rNowVal] else [])) →
      s ∈ buildOut "aggressive" symbol c := by
    intro hmem
    rw [buildOut, if_neg (by decide : ¬("aggressive" = "conservative"))]
    simp only [List.mem_append]
    rcases hmem with h | h | h
    · exact Or.inl (Or.inl (Or.inr h))
    · exact Or.inl (Or.inr h)
    · exact Or.inr h
  rcases hs with ((h | h) | h) | h
  · by_cases hcond : (c.macdBullCross && c.rsiRebound && c.volSpike &&
        decide ((1 : ℚ) < c.momentum)) = true
    · rw [if_pos hcond] at h
      have hbull : c.macdBullCross = true := by
        simp only [Bool.and_eq_true] at hcond
        exact hcond.1.1.1
      exact Or.inr ⟨List.mem_singleton.mp h, buildOut_agg_bull symbol c hbull⟩
    · rw [if_neg hcond] at h
      exact absurd h (List.not_mem_nil s)
  · exact Or.inl (hcommon (Or.inl h))
  · exact Or.inl (hcommon (Or.inr (Or.inl h)))
  · exact Or.inl (hcommon (Or.inr (Or.inr h)))

/-- C5 (amended): for identical inputs, every conservative-mode finding is
either literally contained in the aggressive-mode finding list or is the
conservative bullish-setup text, in which case the aggressive list
contains the corresponding aggressive bullish-setup text.  The two
bullish texts differ, so the claim's literal subset fails (see the
counterexample). -/
theorem conservative_vs_aggressive (symbol : String) (closes volumes : List ℚ)
    (lc la : List String)
    (hc : generate_signals symbol closes volumes "conservative" = .ok lc)
    (ha : generate_signals symbol closes volumes "aggressive" = .ok la) :
    ∀ s ∈ lc, s ∈ la ∨ ∃ m, s = consBullMsg symbol m ∧ aggBullMsg symbol m ∈ la := by
  rw [generate_signals] at hc ha
  by_cases h60 : closes.length < 60
  · rw [if_pos h60] at hc
    cases hc
    intro s hs
    exact absurd hs (List.not_mem_nil s)
  · rw [if_neg h60] at hc ha
    by_cases hg : rsi closes 14 = [] ∨ (macd closes 12 26 9).2.2 = []
    · rw [if_pos hg] at hc
      cases hc
      intro s hs
      exact absurd hs (List.not_mem_nil s)
    · rw [if_neg hg] at hc ha
      cases hext : extractCtx (rsi closes 14) (macd closes 12 26 9).1
          (macd closes 12 26 9).2.1 (macd closes 12 26 9).2.2 closes volumes with
      | error e =>
        rw [hext, emap_error] at hc
        cases hc
      | ok ctx =>
        rw [hext, emap_ok] at hc ha
        cases hc
        cases ha
        intro s hs
        have hs2 := (uniqDedup_mem _ s).mp hs
        rcases buildOut_cons_rel symbol ctx s hs2 with h | ⟨h1, h2⟩
        · exact Or.inl ((uniqDedup_mem _ s).mpr h)
        · exact Or.inr ⟨ctx.momentum, h1, (uniqDedup_mem _ _).mpr h2⟩

/-- C5 (counterexample to the claim as stated): on the decline-then-jump
series all four conservative conditions hold simultaneously; conservative
mode emits its own bullish text, which is not an element of the
aggressive-mode output, so the conservative finding list is not a subset
of the aggressive one. -/
theorem conservative_not_subset_counterexample :
    generate_signals "X" exCloses exVols "conservative"
        = .ok ["✅ X: MACD bullish cross, RSI↑>50, wolumen↑, mom 1.91%"] ∧
    generate_signals "X" exCloses exVols "aggressive"
        = .ok ["⚡ X: wczesny sygnał (MACD/RSI/Volume), mom 1.91%"] ∧
    "✅ X: MACD bullish cross, RSI↑>50, wolumen↑, mom 1.91%"
        ∉ ["⚡ X: wczesny sygnał (MACD/RSI/Volume), mom 1.91%"] :=
  ⟨by with_unfolding_all rfl, by with_unfolding_all rfl, by decide⟩

/-- C5 witness: the amended theorem applied to the same concrete series. -/
theorem conservative_vs_aggressive_witness :
    generate_signals "X" exCloses exVols "conservative" = .ok [consBullMsg "X" (225 / 118)] ∧
    generate_signals "X" exCloses exVols "aggressive" = .ok [aggBullMsg "X" (225 / 118)] ∧
    (∀ s ∈ [consBullMsg "X" (225 / 118)], s ∈ [aggBullMsg "X" (225 / 118)] ∨
      ∃ m, s = consBullMsg "X" m ∧ aggBullMsg "X" m ∈ [aggBullMsg "X" (225 / 118)]) :=
  ⟨by with_unfolding_all rfl, by with_unfolding_all rfl,
    conservative_vs_aggressive "X" exCloses exVols _ _
      (by with_unfolding_all rfl) (by with_unfolding_all rfl)⟩


/-! ### Evaluator run lemmas, C9, and scan-cycle lemmas, C8 -/

theorem ebind_ok {α β : Type _} (a : α) (f : α → Except Err β) :
    (Except.ok a : Except Err α) >>= f = f a := rfl

theorem ebind_err {α β : Type _} (e : Err) (f : α → Except Err β) :
    (Except.error e : Except Err α) >>= f = .error e := rfl

theorem epure {α : Type _} (a : α) : (pure a : Except Err α) = .ok a := rfl

theorem isOk_pure {α : Type _} (a : α) : isOk (pure a : Except Err α) := ⟨a, rfl⟩

theorem isOk_bind {α β : Type _} {x : Except Err α} {f : α → Except Err β}
    (hx : isOk x) (hf : ∀ a, x = .ok a → isOk (f a)) : isOk (x >>= f) := by
  obtain ⟨a, ha⟩ := hx
  rw [ha, ebind_ok]
  exact hf a ha

theorem isOk_ite {α : Type _} {c : Prop} [Decidable c] {x y : Except Err α}
    (hx : isOk x) (hy : isOk y) : isOk (if c then x else y) := by
  split
  · exact hx
  · exact hy

theorem lastE_eq {α : Type _} {l : List α} {a : α} (h : l.getLast? = some a) :
    lastE l = .ok a := by
  simp only [lastE, h]

theorem lastE_ok {α : Type _} (l : List α) (h : l ≠ []) : ∃ a, lastE l = .ok a :=
  ⟨l.getLast h, lastE_eq (List.getLast?_eq_getLast_of_ne_nil h)⟩

theorem prevE_ok {α : Type _} (l : List α) (h : l ≠ []) : ∃ a, prevE l = .ok a := by
  by_cases h1 : 1 < l.length
  · have h2 : l.length - 2 < l.length := by omega
    refine ⟨l.get ⟨l.length - 2, h2⟩, ?_⟩
    simp only [prevE, if_pos h1, List.getElem?_eq_getElem h2]
    rfl
  · simp only [prevE, if_neg h1]
    exact lastE_ok l h

theorem negE_ok {α : Type _} (l : List α) (k : Nat) (hk : 0 < k) (hlen : k ≤ l.length) :
    ∃ a, negE l k = .ok a := by
  have h2 : l.length - k < l.length := by omega
  refine ⟨l.get ⟨l.length - k, h2⟩, ?_⟩
  simp only [negE, if_pos (show 0 < k ∧ k ≤ l.length from ⟨hk, hlen⟩),
    List.getElem?_eq_getElem h2]
  rfl

theorem rsi_length (values : List ℚ) (period : Nat) (h : period < values.length) :
    (rsi values period).length = values.length - 1 := by
  rw [rsi_eq values period h]
  simp only [List.length_append, List.length_replicate, List.length_map,
    rsiLoop_length, List.length_drop, gainsLosses_length]
  omega

theorem rsi_ne_nil (closes : List ℚ) (h : 15 ≤ closes.length) : rsi closes 14 ≠ [] := by
  have hl := rsi_length closes 14 (by omega)
  intro he
  rw [he] at hl
  simp only [List.length_nil] at hl
  omega

theorem rsi_getElem_some (closes : List ℚ) (i : Nat) (h14 : 14 ≤ i)
    (hi : i < (rsi closes 14).length) (hlen : 14 < closes.length) :
    ∃ q, (rsi closes 14)[i]? = some (some q) := by
  have hl := rsi_length closes 14 hlen
  rw [rsi_eq closes 14 hlen] at hi ⊢
  rw [List.getElem?_append_right (by simp only [List.length_replicate]; omega)]
  simp only [List.length_replicate, List.getElem?_map]
  have hloop : i - 14 < (rsiLoop 14 (rsiSeedGain closes 14) (rsiSeedLoss closes 14)
      ((gainsLosses closes).drop 14)).length := by
    simp only [List.length_append, List.length_replicate, List.length_map] at hi
    omega
  rw [List.getElem?_eq_getElem hloop]
  exact ⟨_, rfl⟩

theorem rsi_lastE (closes : List ℚ) (h : 16 ≤ closes.length) :
    ∃ q, lastE (rsi closes 14) = .ok (some q) := by
  have hlen : 14 < closes.length := by omega
  have hl := rsi_length closes 14 hlen
  have h14 : 14 ≤ (rsi closes 14).length - 1 := by omega
  have hi : (rsi closes 14).length - 1 < (rsi closes 14).length := by omega
  obtain ⟨q, hq⟩ := rsi_getElem_some closes ((rsi closes 14).length - 1) h14 hi hlen
  refine ⟨q, ?_⟩
  simp only [lastE, List.getLast?_eq_getElem?, hq]

theorem rsi_prevE (closes : List ℚ) (h : 17 ≤ closes.length) :
    ∃ q, prevE (rsi closes 14) = .ok (some q) := by
  have hlen : 14 < closes.length := by omega
  have hl := rsi_length closes 14 hlen
  have h1 : 1 < (rsi closes 14).length := by omega
  have h14 : 14 ≤ (rsi closes 14).length - 2 := by omega
  have hi : (rsi closes 14).length - 2 < (rsi closes 14).length := by omega
  obtain ⟨q, hq⟩ := rsi_getElem_some closes ((rsi closes 14).length - 2) h14 hi hlen
  refine ⟨q, ?_⟩
  simp only [prevE, if_pos h1, hq]

theorem macd_lengths (values : List ℚ) (h : 26 + 9 + 5 ≤ values.length) :
    (macd values 12 26 9).1.length = values.length ∧
    (macd values 12 26 9).2.1.length = values.length ∧
    (macd values 12 26 9).2.2.length = values.length := by
  rw [macd, if_neg (not_lt.mpr h)]
  simp only [ema_length, min_self, Nat.sub_self, List.drop_zero, List.length_map,
    List.length_zip]
  refine ⟨?_, ?_, ?_⟩ <;>
    simp [ema_length, List.length_map, List.length_zip, List.length_drop, min_self,
      Nat.sub_self]

theorem hist_ne_nil (closes : List ℚ) (h : 40 ≤ closes.length) :
    (macd closes 12 26 9).2.2 ≠ [] := by
  have hl := (macd_lengths closes (by omega)).2.2
  intro he
  rw [he] at hl
  simp only [List.length_nil] at hl
  omega

theorem extractCtx_run (closes volumes : List ℚ) (h60 : 60 ≤ closes.length) :
    (volumes = [] →
      extractCtx (rsi closes 14) (macd closes 12 26 9).1 (macd closes 12 26 9).2.1
        (macd closes 12 26 9).2.2 closes volumes = .error .indexError) ∧
    (volumes ≠ [] →
      isOk (extractCtx (rsi closes 14) (macd closes 12 26 9).1 (macd closes 12 26 9).2.1
        (macd closes 12 26 9).2.2 closes volumes)) := by
  have hcne : closes ≠ [] := by
    intro he
    rw [he] at h60
    simp at h60
  obtain ⟨c1, hc1⟩ := lastE_ok closes hcne
  obtain ⟨qN, hrN⟩ := rsi_lastE closes (by omega)
  obtain ⟨qP, hrP⟩ := rsi_prevE closes (by omega)
  obtain ⟨hm1len, hm2len, hm3len⟩ := macd_lengths closes (by omega)
  have hne1 : (macd closes 12 26 9).1 ≠ [] := by
    intro he; rw [he] at hm1len; simp only [List.length_nil] at hm1len; omega
  have hne2 : (macd closes 12 26 9).2.1 ≠ [] := by
    intro he; rw [he] at hm2len; simp only [List.length_nil] at hm2len; omega
  have hne3 : (macd closes 12 26 9).2.2 ≠ [] := by
    intro he; rw [he] at hm3len; simp only [List.length_nil] at hm3len; omega
  obtain ⟨mN, hmN⟩ := lastE_ok _ hne1
  obtain ⟨mP, hmP⟩ := prevE_ok _ hne1
  obtain ⟨sN, hsN⟩ := lastE_ok _ hne2
  obtain ⟨sP, hsP⟩ := prevE_ok _ hne2
  obtain ⟨hN, hhN⟩ := lastE_ok _ hne3
  obtain ⟨hP, hhP⟩ := prevE_ok _ hne3
  obtain ⟨v4, hv4⟩ := negE_ok closes 4 (by norm_num) (by omega)
  constructor
  · intro hvnil
    subst hvnil
    simp only [extractCtx, hc1, hrN, hrP, hmN, hmP, hsN, hsP, hhN, hhP, hv4,
      ebind_ok, qval]
    rfl
  · intro hvne
    obtain ⟨vL, hvL⟩ := lastE_ok volumes hvne
    simp only [extractCtx, hc1, hrN, hrP, hmN, hmP, hsN, hsP, hhN, hhP, hvL, hv4,
      ebind_ok, epure, qval]
    by_cases h20 : 20 ≤ volumes.length
    · rw [if_pos h20]
      repeat' apply isOk_ite
      all_goals exact ⟨_, rfl⟩
    · rw [if_neg h20, if_neg (fun h0 => hvne (List.length_eq_zero.mp h0))]
      repeat' apply isOk_ite
      all_goals exact ⟨_, rfl⟩

/-- C9 (amended): calling the evaluator with at least 60 closes and an
empty volumes list raises an IndexError at the volumes[-1] read of line
184, before the volume-average division of line 185 is ever reached,
instead of returning no findings. -/
theorem empty_volumes_raises (symbol : String) (closes : List ℚ) (mode : String)
    (h60 : 60 ≤ closes.length) :
    generate_signals symbol closes [] mode = .error .indexError := by
  rw [generate_signals, if_neg (not_lt.mpr h60)]
  rw [if_neg (not_or.mpr ⟨rsi_ne_nil closes (by omega), hist_ne_nil closes (by omega)⟩)]
  rw [(extractCtx_run closes [] h60).1 rfl]
  rfl

/-- C9 (counterexample to the claim as stated): on a concrete 60-bar
series with empty volumes the evaluator raises an IndexError reading
volumes[-1], not the division-by-zero error the claim names. -/
theorem empty_volumes_counterexample :
    generate_signals "X" flatCloses [] "aggressive" = .error .indexError ∧
      Err.indexError ≠ Err.zeroDivisionError :=
  ⟨by with_unfolding_all rfl, by decide⟩

/-- C9 witness: the amended theorem applied to the constant 60-bar series. -/
theorem empty_volumes_witness :
    60 ≤ flatCloses.length ∧
      generate_signals "Y" flatCloses [] "conservative" = .error .indexError :=
  ⟨by decide, empty_volumes_raises "Y" flatCloses "conservative" (by decide)⟩

theorem generate_signals_ok (symbol : String) (closes volumes : List ℚ)
    (hlen : volumes.length = closes.length) (mode : String) :
    ∃ out, generate_signals symbol closes volumes mode = .ok out := by
  by_cases h60 : closes.length < 60
  · rw [generate_signals, if_pos h60]
    exact ⟨[], rfl⟩
  · push_neg at h60
    rw [generate_signals, if_neg (not_lt.mpr h60)]
    rw [if_neg (not_or.mpr ⟨rsi_ne_nil closes (by omega), hist_ne_nil closes (by omega)⟩)]
    have hvne : volumes ≠ [] := by
      intro he
      rw [he] at hlen
      simp only [List.length_nil] at hlen
      omega
    obtain ⟨c, hc⟩ := (extractCtx_run closes volumes h60).2 hvne
    rw [hc, emap_ok]
    exact ⟨_, rfl⟩

theorem parseCell_ok_of_cellOK {row : List (Option ℚ)} {i : Nat}
    (h : cellOK row i = true) : ∃ c, parseCell row i = .ok c := by
  rw [cellOK] at h
  cases hr : row[i]? with
  | none =>
    rw [hr] at h
    exact absurd h (by simp)
  | some o =>
    cases o with
    | none =>
      rw [hr] at h
      exact absurd h (by simp)
    | some q =>
      refine ⟨q, ?_⟩
      simp only [parseCell, hr]

theorem mapME_ok_of_forall {α β : Type _} (f : α → Except Err β) :
    ∀ (l : List α), (∀ a ∈ l, ∃ b, f a = .ok b) →
      ∃ bs, mapME f l = .ok bs ∧ bs.length = l.length := by
  intro l
  induction l with
  | nil => intro _; exact ⟨[], rfl, rfl⟩
  | cons a rest ih =>
    intro hall
    obtain ⟨b, hb⟩ := hall a (List.mem_cons_self _ _)
    obtain ⟨bs, hbs, hblen⟩ := ih (fun x hx => hall x (List.mem_cons_of_mem _ hx))
    refine ⟨b :: bs, ?_, by simp [hblen]⟩
    simp only [mapME, hb, hbs, ebind_ok, epure]

theorem scanSymbol_ok (mode sym : String) (kl : List (List (Option ℚ)))
    (hwf : wellFormed kl) :
    ∃ o, scanSymbol mode sym kl = .ok o ∧ (o.isSome = true ↔ 30 ≤ kl.length) := by
  by_cases hskip : kl = [] ∨ kl.length < 30
  · rw [scanSymbol, if_pos hskip]
    refine ⟨none, rfl, ?_⟩
    simp only [Option.isSome_none]
    constructor
    · intro h; exact absurd h (by simp)
    · intro h30
      rcases hskip with he | hlt
      · rw [he] at h30; simp at h30
      · omega
  · rw [scanSymbol, if_neg hskip]
    push_neg at hskip
    obtain ⟨closes, hcl, hcllen⟩ :=
      mapME_ok_of_forall (fun k => parseCell k 4) kl
        (fun row hrow => parseCell_ok_of_cellOK (hwf row hrow).1)
    obtain ⟨vols, hvl, hvllen⟩ :=
      mapME_ok_of_forall (fun k => parseCell k 5) kl
        (fun row hrow => parseCell_ok_of_cellOK (hwf row hrow).2)
    obtain ⟨out, hout⟩ := generate_signals_ok sym closes vols (by omega) mode
    refine ⟨some out, ?_, by simp; omega⟩
    simp only [hcl, hvl, hout, ebind_ok, epure]

theorem scanLoop_ok (fetch : String → List (List (Option ℚ))) (mode : String) :
    ∀ symbols : List String, (∀ sym ∈ symbols, wellFormed (fetch sym)) →
      ∃ res, scanLoop fetch mode symbols = .ok res ∧
        res.2 = (symbols.filter (fun s => 30 ≤ (fetch s).length)).length := by
  intro symbols
  induction symbols with
  | nil => intro _; exact ⟨([], 0), rfl, rfl⟩
  | cons sym rest ih =>
    intro hall
    obtain ⟨o, ho, hsome⟩ := scanSymbol_ok mode sym (fetch sym)
      (hall sym (List.mem_cons_self _ _))
    obtain ⟨res, hres, hcount⟩ := ih (fun s hs => hall s (List.mem_cons_of_mem _ hs))
    cases o with
    | none =>
      have hnot : ¬ (30 ≤ (fetch sym).length) := by
        intro h30
        simp only [Option.isSome_none] at hsome
        exact absurd (hsome.mpr h30) (by simp)
      refine ⟨(res.1, res.2), ?_, ?_⟩
      · simp only [scanLoop, ho, hres, ebind_ok, epure]
      · rw [List.filter_cons, if_neg (by simpa using hnot)]
        simpa using hcount
    | some sigs =>
      have hyes : 30 ≤ (fetch sym).length := by
        simp only [Option.isSome_some] at hsome
        exact hsome.mp trivial
      refine ⟨(sigs ++ res.1, res.2 + 1), ?_, ?_⟩
      · simp only [scanLoop, ho, hres, ebind_ok, epure]
      · rw [List.filter_cons, if_pos (by simpa using hyes)]
        simp only [List.length_cons]
        omega

/-- C8 (amended): a symbol whose fetch failed or returned fewer than 30
candles is skipped while every remaining symbol is still processed: when
all fetched candle rows are well-formed, the cycle completes, the checked
count equals the number of symbols with at least 30 rows, and main
returns the result normally.  (Malformed candle data, by contrast, aborts
the remainder of the cycle: see the counterexample; the abort is caught
by main's top-level handler, which returns none instead of crashing.) -/
theorem scan_cycle (fetch : String → List (List (Option ℚ))) (mode : String)
    (symbols : List String) (hwf : ∀ sym ∈ symbols, wellFormed (fetch sym)) :
    ∃ res, scanLoop fetch mode symbols = .ok res ∧
      mainRun fetch mode symbols = some res ∧
      res.2 = (symbols.filter (fun s => 30 ≤ (fetch s).length)).length := by
  obtain ⟨res, hres, hcount⟩ := scanLoop_ok fetch mode symbols hwf
  refine ⟨res, hres, ?_, hcount⟩
  rw [mainRun, hres]

/-- C8 (counterexample to the claim as stated): with malformed candle data
for the first symbol, the per-symbol loop raises and the cycle aborts:
the second symbol is never processed (the loop result is an error, not a
completed cycle), and main swallows the exception, returning none. -/
theorem scan_abort_counterexample :
    scanLoop badFetch "aggressive" ["S1", "S2"] = .error .valueError ∧
    mainRun badFetch "aggressive" ["S1", "S2"] = none :=
  ⟨by with_unfolding_all rfl, by with_unfolding_all rfl⟩

/-- C8 witness: the amended theorem applied to a cycle in which the first
symbol's fetch fails and the second succeeds; the failed symbol is
skipped and the cycle completes with checked count 1. -/
theorem scan_cycle_witness :
    (∀ sym ∈ ["S1", "S2"], wellFormed (skipFetch sym)) ∧
    (∃ res, scanLoop skipFetch "aggressive" ["S1", "S2"] = .ok res ∧
      mainRun skipFetch "aggressive" ["S1", "S2"] = some res ∧
      res.2 = (["S1", "S2"].filter (fun s => 30 ≤ (skipFetch s).length)).length) :=
  ⟨by decide, scan_cycle skipFetch "aggressive" ["S1", "S2"] (by decide)⟩

/-! ### Notification batcher: C7 -/

theorem mem_dropWhile_of_mem {α : Type _} (p : α → Bool) :
    ∀ (l : List α) (x : α), x ∈ l → p x = false → x ∈ l.dropWhile p := by
  intro l
  induction l with
  | nil => intro x hx _; exact absurd hx (List.not_mem_nil x)
  | cons a t ih =>
    intro x hx hpx
    rw [List.dropWhile_cons]
    by_cases hpa : p a = true
    · rw [if_pos hpa]
      rcases List.mem_cons.mp hx with h | h
      · rw [h] at hpx
        rw [hpx] at hpa
        exact absurd hpa (by simp)
      · exact ih x h hpx
    · rw [if_neg hpa]
      exact hx

theorem strip_ne_empty {s : String} {c : Char} (hc : c ∈ s.data)
    (hw : c.isWhitespace = false) : strip s ≠ "" := by
  intro he
  have hdata := congrArg String.data he
  simp only [strip] at hdata
  have h1 : c ∈ s.data.dropWhile Char.isWhitespace :=
    mem_dropWhile_of_mem _ _ _ hc hw
  have h2 : c ∈ (s.data.dropWhile Char.isWhitespace).reverse := List.mem_reverse.mpr h1
  have h3 : c ∈ ((s.data.dropWhile Char.isWhitespace).reverse).dropWhile Char.isWhitespace :=
    mem_dropWhile_of_mem _ _ _ h2 hw
  rw [List.reverse_eq_nil_iff.mp hdata] at h3
  exact absurd h3 (List.not_mem_nil c)

theorem joinLines_append : ∀ (a b : List String),
    joinLines (a ++ b) = joinLines a ++ joinLines b := by
  intro a
  induction a with
  | nil => intro b; simp [joinLines, String.empty_append]
  | cons l ls ih =>
    intro b
    simp only [List.cons_append, joinLines, List.append_eq, ih, String.append_assoc]

theorem joinLines_snoc (g : List String) (line : String) :
    joinLines (g ++ [line]) = joinLines g ++ line ++ "\n" := by
  rw [joinLines_append]
  simp only [joinLines, String.append_empty, String.append_assoc]

theorem joinLines_length : ∀ ls : List String,
    (joinLines ls).length = (ls.map (fun l => l.length + 1)).sum := by
  intro ls
  induction ls with
  | nil => rfl
  | cons l t ih =>
    simp only [joinLines, List.map_cons, List.sum_cons, String.length_append, ih]
    rfl

theorem chunk_snoc (header chunk : String) (g : List String) (line : String)
    (h : chunk = header ++ joinLines g) :
    chunk ++ line ++ "\n" = header ++ joinLines (g ++ [line]) := by
  rw [h, joinLines_snoc, String.append_assoc, String.append_assoc, String.append_assoc]

theorem batchGo_groups (header : String) (c0 : Char) (hc0 : c0 ∈ header.data)
    (hw0 : c0.isWhitespace = false) :
    ∀ (lines gcur : List String), gcur ≠ [] ∨ lines ≠ [] →
      ∃ groups : List (List String), groups ≠ [] ∧ groups.join = gcur ++ lines ∧
        batchGo header (header ++ joinLines gcur) lines =
          groups.map (fun g => header ++ joinLines g) := by
  intro lines
  induction lines with
  | nil =>
    intro gcur hne
    refine ⟨[gcur], by simp, by simp, ?_⟩
    rw [batchGo]
    rw [if_neg (strip_ne_empty (by rw [String.data_append]; exact List.mem_append_left _ hc0) hw0)]
    simp
  | cons line rest ih =>
    intro gcur _
    rw [batchGo]
    by_cases hov : 3800 < (header ++ joinLines gcur).length + line.length + 1
    · rw [if_pos hov]
      have hform : header ++ line ++ "\n" = header ++ joinLines [line] := by
        simp only [joinLines, String.append_empty, String.append_assoc]
      rw [hform]
      obtain ⟨groups, hgne, hgjoin, hgeq⟩ := ih [line] (Or.inl (by simp))
      refine ⟨gcur :: groups, by simp, ?_, ?_⟩
      · simp only [List.join_cons, hgjoin]
        simp
      · simp only [List.map_cons, hgeq]
    · rw [if_neg hov]
      rw [chunk_snoc header _ gcur line rfl]
      obtain ⟨groups, hgne, hgjoin, hgeq⟩ := ih (gcur ++ [line]) (Or.inl (by simp))
      refine ⟨groups, hgne, ?_, hgeq⟩
      rw [hgjoin]
      simp

theorem batchGo_le (header : String) :
    ∀ (lines : List String) (chunk : String),
      (∀ l ∈ lines, header.length + l.length + 1 ≤ 3800) → chunk.length ≤ 3800 →
      ∀ b ∈ batchGo header chunk lines, b.length ≤ 3800 := by
  intro lines
  induction lines with
  | nil =>
    intro chunk _ hchunk b hb
    rw [batchGo] at hb
    split at hb
    · exact absurd hb (List.not_mem_nil b)
    · rw [List.mem_singleton.mp hb]
      exact hchunk
  | cons line rest ih =>
    intro chunk hfit hchunk b hb
    rw [batchGo] at hb
    split at hb
    · rcases List.mem_cons.mp hb with h | h
      · rw [h]; exact hchunk
      · refine ih _ (fun l hl => hfit l (List.mem_cons_of_mem _ hl)) ?_ b h
        have hf := hfit line (List.mem_cons_self _ _)
        have hnl : ("\n" : String).length = 1 := rfl
        simp only [String.length_append, hnl]
        omega
    · rename_i hno
      refine ih _ (fun l hl => hfit l (List.mem_cons_of_mem _ hl)) ?_ b hb
      push_neg at hno
      have hnl : ("\n" : String).length = 1 := rfl
      simp only [String.length_append, hnl]
      omega

theorem batchGo_ne_nil (header : String) (c0 : Char) (hc0 : c0 ∈ header.data)
    (hw0 : c0.isWhitespace = false) :
    ∀ (lines : List String) (chunk : String),
      (∃ c ∈ chunk.data, c.isWhitespace = false) → batchGo header chunk lines ≠ [] := by
  intro lines
  induction lines with
  | nil =>
    intro chunk hchunk
    obtain ⟨c, hc, hw⟩ := hchunk
    rw [batchGo, if_neg (strip_ne_empty hc hw)]
    simp
  | cons line rest ih =>
    intro chunk hchunk
    rw [batchGo]
    split
    · simp
    · refine ih _ ?_
      obtain ⟨c, hc, hw⟩ := hchunk
      refine ⟨c, ?_, hw⟩
      rw [String.data_append, String.data_append]
      exact List.mem_append_left _ (List.mem_append_left _ hc)

theorem batchGo_two (header : String) (c0 : Char) (hc0 : c0 ∈ header.data)
    (hw0 : c0.isWhitespace = false) :
    ∀ (lines : List String) (chunk : String), lines ≠ [] →
      3800 < chunk.length + (joinLines lines).length →
      2 ≤ (batchGo header chunk lines).length := by
  intro lines
  induction lines with
  | nil => intro chunk hne _; exact absurd rfl hne
  | cons line rest ih =>
    intro chunk _ htot
    rw [batchGo]
    by_cases hov : 3800 < chunk.length + line.length + 1
    · rw [if_pos hov]
      have hrest : batchGo header (header ++ line ++ "\n") rest ≠ [] := by
        apply batchGo_ne_nil header c0 hc0 hw0
        refine ⟨c0, ?_, hw0⟩
        rw [String.data_append, String.data_append]
        exact List.mem_append_left _ (List.mem_append_left _ hc0)
      have := List.length_pos.mpr hrest
      simp only [List.length_cons]
      omega
    · rw [if_neg hov]
      push_neg at hov
      cases rest with
      | nil =>
        exfalso
        simp only [joinLines, String.length_append, String.append_empty] at htot
        have h1 : ("\n" : String).length = 1 := rfl
        have h0 : (joinLines ([] : List String)).length = 0 := rfl
        omega
      | cons r2 rrest =>
        apply ih _ (by simp)
        simp only [String.length_append, joinLines, String.length_append] at htot ⊢
        have h1 : ("\n" : String).length = 1 := rfl
        omega

/-- C7 (amended): for a header containing a non-whitespace character and a
non-empty alert list in which every line fits in one block beside the
header, if the single assembled message would exceed 3800 characters then
the batcher emits at least two blocks, every block is at most 3800
characters, every block is the header followed by a consecutive group of
the alert lines (so concatenating the blocks' lines, headers removed,
reconstructs the alerts exactly), and an empty alert list emits nothing.
Without the per-line fit condition, a block can exceed the limit: see
the counterexample. -/
theorem batcher_spec (header : String) (alerts : List String) (c0 : Char)
    (hc0 : c0 ∈ header.data) (hw0 : c0.isWhitespace = false)
    (hfit : ∀ l ∈ alerts, header.length + l.length + 1 ≤ 3800)
    (hne : alerts ≠ [])
    (htot : 3800 < header.length + (joinLines alerts).length) :
    2 ≤ (batch header alerts).length ∧
    (∀ b ∈ batch header alerts, b.length ≤ 3800) ∧
    (∃ groups : List (List String), groups ≠ [] ∧ groups.join = alerts ∧
      batch header alerts = groups.map (fun g => header ++ joinLines g)) ∧
    batch header [] = [] := by
  have hbe : batch header alerts = batchGo header header alerts := by
    rw [batch, if_neg hne]
  have hhead : header.length ≤ 3800 := by
    obtain ⟨l, hl⟩ := List.exists_mem_of_ne_nil alerts hne
    have := hfit l hl
    omega
  refine ⟨?_, ?_, ?_, by rw [batch]; simp⟩
  · rw [hbe]
    exact batchGo_two header c0 hc0 hw0 alerts header hne htot
  · rw [hbe]
    exact batchGo_le header alerts header hfit hhead
  · rw [hbe]
    obtain ⟨groups, hgne, hgjoin, hgeq⟩ :=
      batchGo_groups header c0 hc0 hw0 alerts [] (Or.inr hne)
    have hh : header ++ joinLines [] = header := by
      simp [joinLines, String.append_empty]
    rw [hh] at hgeq
    exact ⟨groups, hgne, by simpa using hgjoin, hgeq⟩

theorem lenHn : ("H\n" : String).length = 2 := rfl

theorem lenNl : ("\n" : String).length = 1 := rfl

/-- C7 (counterexample to the claim as stated): a single 4000-character
finding exceeds a whole block; the produced blocks are the bare header and
an oversized 4003-character block, so "each block is at most 3800
characters" fails even though the findings list is non-empty and its total
text exceeds the limit. -/
theorem batcher_oversize_counterexample :
    ([bigLine] ≠ [] ∧ 3800 < ("H\n" : String).length + (joinLines [bigLine]).length) ∧
    ∃ b ∈ batch "H\n" [bigLine], 3800 < b.length := by
  have hlen : bigLine.length = 4000 := by
    show (List.replicate 4000 'a').length = 4000
    exact List.length_replicate _ _
  have hjl : (joinLines [bigLine]).length = 4001 := by
    simp only [joinLines, String.length_append, String.append_empty, hlen]
    rfl
  constructor
  · exact ⟨by simp, by rw [hjl, lenHn]; norm_num⟩
  · refine ⟨"H\n" ++ bigLine ++ "\n", ?_, ?_⟩
    · have hb : batch "H\n" [bigLine] = ["H\n", "H\n" ++ bigLine ++ "\n"] := by
        rw [batch, if_neg (by simp)]
        rw [batchGo]
        rw [if_pos (by simp only [String.length_append, hlen, lenHn, lenNl]; norm_num)]
        rw [batchGo]
        rw [if_neg (strip_ne_empty (c := 'H')
          (by rw [String.data_append, String.data_append]
              exact List.mem_append_left _ (List.mem_append_left _ (by decide)))
          (by decide))]
      rw [hb]
      exact List.mem_cons_of_mem _ (List.mem_cons_self _ _)
    · simp only [String.length_append, hlen, lenHn, lenNl]
      norm_num

/-- C7 witness: the amended theorem applied to two fitting lines whose
assembled total exceeds 3800 characters (the batcher splits into two
blocks of 3003 and 1003 characters). -/
theorem batcher_spec_witness :
    ('H' ∈ ("H\n" : String).data ∧ ('H'.isWhitespace = false) ∧
      (∀ l ∈ [fitLineA, fitLineB], ("H\n" : String).length + l.length + 1 ≤ 3800) ∧
      [fitLineA, fitLineB] ≠ [] ∧
      3800 < ("H\n" : String).length + (joinLines [fitLineA, fitLineB]).length) ∧
    (2 ≤ (batch "H\n" [fitLineA, fitLineB]).length ∧
      (∀ b ∈ batch "H\n" [fitLineA, fitLineB], b.length ≤ 3800) ∧
      (∃ groups : List (List String), groups ≠ [] ∧ groups.join = [fitLineA, fitLineB] ∧
        batch "H\n" [fitLineA, fitLineB] = groups.map (fun g => "H\n" ++ joinLines g)) ∧
      batch "H\n" ([] : List String) = []) := by
  have hA : fitLineA.length = 3000 := by
    show (List.replicate 3000 'a').length = 3000
    exact List.length_replicate _ _
  have hB : fitLineB.length = 1000 := by
    show (List.replicate 1000 'b').length = 1000
    exact List.length_replicate _ _
  have h1 : 'H' ∈ ("H\n" : String).data := by decide
  have h2 : 'H'.isWhitespace = false := by decide
  have h3 : ∀ l ∈ [fitLineA, fitLineB], ("H\n" : String).length + l.length + 1 ≤ 3800 := by
    intro l hl
    rcases List.mem_cons.mp hl with h | h
    · rw [h, hA, lenHn]; norm_num
    · rw [List.mem_singleton.mp h, hB, lenHn]; norm_num
  have h4 : ([fitLineA, fitLineB] : List String) ≠ [] := by simp
  have h5 : 3800 < ("H\n" : String).length + (joinLines [fitLineA, fitLineB]).length := by
    simp only [joinLines, String.length_append, String.append_empty, hA, hB, lenHn, lenNl]
    norm_num
  exact ⟨⟨h1, h2, h3, h4, h5⟩, batcher_spec "H\n" [fitLineA, fitLineB] 'H' h1 h2 h3 h4 h5⟩

end TgBot
